import Mathlib

/-!
Verification of the ThreadedCodeDemo repository: a single-pass compiler from
an 8-instruction character language to a resolved instruction sequence, and
several execution-engine variants (switch-based dispatch in
src/benchmarking/Switch.cpp, computed-goto dispatch in
src/benchmarking/ComputedGotos.cpp and src/benchmarking/main2.cpp, and the
sketch engine in src/direct_threading_demo.cpp).

The definitions below are shallow embeddings of the C++ source: the
std::vector of instructions becomes a List, the loop-nesting stack
std::vector (back as top) becomes a List with its head as top, the
30000-cell unsigned-char tape becomes a List Nat whose writes reduce
modulo 256, standard input becomes a List Nat of pending bytes, and the
output stream becomes a List Nat of emitted bytes.  Undefined behaviour in
the C++ (vector::back on an empty vector, dereferencing out of range,
reading the inactive union member) is modelled as an Option / fault result.
-/

namespace ThreadedCode

/-- The opcode enumeration of switch_::OpCode (src/benchmarking/Switch.cpp).
The computed-goto variants use label addresses for the same nine roles. -/
inductive OpCode where
  | INCR
  | DECR
  | LEFT
  | RIGHT
  | OPEN
  | CLOSE
  | PUT
  | GET
  | HALT
deriving DecidableEq, Repr

/-- One slot of the instruction stream (the C++ union Instruction): either an
opcode, an integer jump operand, or the null placeholder that the
computed-goto planters store before a forward jump is resolved. -/
inductive Instruction where
  | opcode (op : OpCode)
  | operand (n : Nat)
  | nullSlot
deriving DecidableEq, Repr

/-- The character-to-opcode map built in every engine run method: the eight
instruction characters plus the NUL character, which maps to HALT. -/
def charToOpCode : Char → Option OpCode
  | '+' => some OpCode.INCR
  | '-' => some OpCode.DECR
  | '<' => some OpCode.LEFT
  | '>' => some OpCode.RIGHT
  | '[' => some OpCode.OPEN
  | ']' => some OpCode.CLOSE
  | '.' => some OpCode.PUT
  | ',' => some OpCode.GET
  | '\x00' => some OpCode.HALT
  | _ => none

/-- The mutable state of a CodePlanter: the instruction vector being built
and the loop-nesting stack of placeholder indexes (list head = vector back). -/
structure PlanterState where
  program : List Instruction
  indexes : List Nat
deriving DecidableEq, Repr

/-- Translation of switch_::CodePlanter::plantChar (src/benchmarking/Switch.cpp,
lines 65-86).  Characters outside the map are skipped.  On a loop open the
index of the just-appended dummy slot (the dummy is OpCode::HALT in this
variant) is pushed; on a loop close the stack is popped and the dummy slot is
overwritten.  The result is none exactly when the C++ would call back() on an
empty vector, which is undefined behaviour. -/
def plantChar (s : PlanterState) (ch : Char) : Option PlanterState :=
  match charToOpCode ch with
  | none => some s
  | some op =>
    let program := s.program ++ [Instruction.opcode op]
    if ch = '[' then
      some ⟨program ++ [Instruction.opcode OpCode.HALT], program.length :: s.indexes⟩
    else if ch = ']' then
      match s.indexes with
      | [] => none
      | start :: rest =>
        some ⟨(program.set start (Instruction.operand (program.length + 1))) ++
                [Instruction.operand (start + 1)], rest⟩
    else
      some ⟨program, s.indexes⟩

/-- The character loop of switch_::CodePlanter::plantProgram. -/
def plantChars (s : PlanterState) : List Char → Option PlanterState
  | [] => some s
  | c :: cs =>
    match plantChar s c with
    | none => none
    | some s2 => plantChars s2 cs

/-- Translation of switch_::CodePlanter::plantProgram: plant every source
character, then append the trailing HALT.  The planter writes into the
engine's existing program vector, so the initial contents p0 are a
parameter; a fresh engine passes []. -/
def plantProgram (p0 : List Instruction) (src : List Char) : Option (List Instruction) :=
  (plantChars ⟨p0, []⟩ src).map fun s => s.program ++ [Instruction.opcode OpCode.HALT]

/-- Translation of computed_gotos::CodePlanter::plantChar
(src/benchmarking/ComputedGotos.cpp, lines 69-90); identical to the switch
variant except that the dummy slot is the null label pointer. -/
def plantCharCG (s : PlanterState) (ch : Char) : Option PlanterState :=
  match charToOpCode ch with
  | none => some s
  | some op =>
    let program := s.program ++ [Instruction.opcode op]
    if ch = '[' then
      some ⟨program ++ [Instruction.nullSlot], program.length :: s.indexes⟩
    else if ch = ']' then
      match s.indexes with
      | [] => none
      | start :: rest =>
        some ⟨(program.set start (Instruction.operand (program.length + 1))) ++
                [Instruction.operand (start + 1)], rest⟩
    else
      some ⟨program, s.indexes⟩

/-- The character loop of computed_gotos::CodePlanter::plantProgram. -/
def plantCharsCG (s : PlanterState) : List Char → Option PlanterState
  | [] => some s
  | c :: cs =>
    match plantCharCG s c with
    | none => none
    | some s2 => plantCharsCG s2 cs

/-- Translation of computed_gotos::CodePlanter::plantProgram (also the
planter of two::CodePlanter in main2.cpp and of the CodePlanter in
direct_threading_demo.cpp, which plant the same null dummy). -/
def plantProgramCG (p0 : List Instruction) (src : List Char) : Option (List Instruction) :=
  (plantCharsCG ⟨p0, []⟩ src).map fun s => s.program ++ [Instruction.opcode OpCode.HALT]

/-- Lookup of the element a given number of slots past the start of a
list: the pointer arithmetic plus dereference the engines perform on the
program vector and the tape; none models an out-of-range access.  (This is
extensionally List.getElem?, defined by structural recursion so that
concrete machine runs evaluate lazily.) -/
def nth {α : Type} : List α → Nat → Option α
  | [], _ => none
  | a :: _, 0 => some a
  | _ :: l, n + 1 => nth l n

/-- nth agrees with the library list lookup. -/
theorem nth_eq_getElem? {α : Type} (l : List α) (n : Nat) : nth l n = l[n]? := by
  induction l generalizing n with
  | nil => cases n <;> rfl
  | cons a l ih =>
    cases n with
    | zero => simp [nth]
    | succ n => simp [nth, ih]

/-- The engine's execution state: program counter, tape cursor, tape
contents, pending input bytes and emitted output bytes. -/
structure MachineState where
  pc : Nat
  cursor : Nat
  memory : List Nat
  input : List Nat
  output : List Nat
deriving DecidableEq, Repr

/-- Result of one dispatch iteration. -/
inductive StepResult where
  | next (s : MachineState)
  | halted (s : MachineState)
  | fault
deriving DecidableEq, Repr

/-- One iteration of the dispatch loop of switch_::Engine::runMacros
(src/benchmarking/Switch.cpp, lines 144-178): fetch the instruction at pc,
advance pc, execute.  OPEN reads its operand and jumps when the cell is
zero; CLOSE reads its operand and jumps when the cell is nonzero.  Cell
writes wrap modulo 256 (unsigned char).  GET with exhausted input leaves
the cell unchanged.  fault models the undefined behaviour of running off
the program, reading the inactive union member, or touching the tape out
of range. -/
def step (prog : List Instruction) (s : MachineState) : StepResult :=
  match nth prog s.pc with
  | some (Instruction.opcode op) =>
    let pc := s.pc + 1
    match op with
    | OpCode.INCR =>
      match nth s.memory s.cursor with
      | some v => StepResult.next { s with pc := pc, memory := s.memory.set s.cursor ((v + 1) % 256) }
      | none => StepResult.fault
    | OpCode.DECR =>
      match nth s.memory s.cursor with
      | some v => StepResult.next { s with pc := pc, memory := s.memory.set s.cursor ((v + 255) % 256) }
      | none => StepResult.fault
    | OpCode.RIGHT => StepResult.next { s with pc := pc, cursor := s.cursor + 1 }
    | OpCode.LEFT =>
      if s.cursor = 0 then StepResult.fault
      else StepResult.next { s with pc := pc, cursor := s.cursor - 1 }
    | OpCode.PUT =>
      match nth s.memory s.cursor with
      | some v => StepResult.next { s with pc := pc, output := s.output ++ [v] }
      | none => StepResult.fault
    | OpCode.GET =>
      match s.input with
      | [] => StepResult.next { s with pc := pc }
      | b :: rest =>
        match nth s.memory s.cursor with
        | some _ => StepResult.next { s with pc := pc, memory := s.memory.set s.cursor (b % 256), input := rest }
        | none => StepResult.fault
    | OpCode.OPEN =>
      match nth prog pc with
      | some (Instruction.operand n) =>
        match nth s.memory s.cursor with
        | some v => StepResult.next { s with pc := if v = 0 then n else pc + 1 }
        | none => StepResult.fault
      | _ => StepResult.fault
    | OpCode.CLOSE =>
      match nth prog pc with
      | some (Instruction.operand n) =>
        match nth s.memory s.cursor with
        | some v => StepResult.next { s with pc := if v ≠ 0 then n else pc + 1 }
        | none => StepResult.fault
      | _ => StepResult.fault
    | OpCode.HALT => StepResult.halted s
  | _ => StepResult.fault

/-- One iteration of the label-threaded dispatch of
computed_gotos::Engine::runFile / runMacros / runUnreachable
(src/benchmarking/ComputedGotos.cpp): the same per-opcode actions as the
switch dispatch, written as its own function so the two sources can be
compared. -/
def stepCG (prog : List Instruction) (s : MachineState) : StepResult :=
  match nth prog s.pc with
  | some (Instruction.opcode op) =>
    let pc := s.pc + 1
    match op with
    | OpCode.INCR =>
      match nth s.memory s.cursor with
      | some v => StepResult.next { s with pc := pc, memory := s.memory.set s.cursor ((v + 1) % 256) }
      | none => StepResult.fault
    | OpCode.DECR =>
      match nth s.memory s.cursor with
      | some v => StepResult.next { s with pc := pc, memory := s.memory.set s.cursor ((v + 255) % 256) }
      | none => StepResult.fault
    | OpCode.RIGHT => StepResult.next { s with pc := pc, cursor := s.cursor + 1 }
    | OpCode.LEFT =>
      if s.cursor = 0 then StepResult.fault
      else StepResult.next { s with pc := pc, cursor := s.cursor - 1 }
    | OpCode.PUT =>
      match nth s.memory s.cursor with
      | some v => StepResult.next { s with pc := pc, output := s.output ++ [v] }
      | none => StepResult.fault
    | OpCode.GET =>
      match s.input with
      | [] => StepResult.next { s with pc := pc }
      | b :: rest =>
        match nth s.memory s.cursor with
        | some _ => StepResult.next { s with pc := pc, memory := s.memory.set s.cursor (b % 256), input := rest }
        | none => StepResult.fault
    | OpCode.OPEN =>
      match nth prog pc with
      | some (Instruction.operand n) =>
        match nth s.memory s.cursor with
        | some v => StepResult.next { s with pc := if v = 0 then n else pc + 1 }
        | none => StepResult.fault
      | _ => StepResult.fault
    | OpCode.CLOSE =>
      match nth prog pc with
      | some (Instruction.operand n) =>
        match nth s.memory s.cursor with
        | some v => StepResult.next { s with pc := if v ≠ 0 then n else pc + 1 }
        | none => StepResult.fault
      | _ => StepResult.fault
    | OpCode.HALT => StepResult.halted s
  | _ => StepResult.fault

/-- One iteration of the dispatch of two::Engine::runFile / runFileLambdas /
runFileWithUnreachable / runFileLambdasAndUnreachable
(src/benchmarking/main2.cpp): again the same per-opcode actions (the lambda
wrappers around each label body do not change the state transitions). -/
def stepTwo (prog : List Instruction) (s : MachineState) : StepResult :=
  match nth prog s.pc with
  | some (Instruction.opcode op) =>
    let pc := s.pc + 1
    match op with
    | OpCode.INCR =>
      match nth s.memory s.cursor with
      | some v => StepResult.next { s with pc := pc, memory := s.memory.set s.cursor ((v + 1) % 256) }
      | none => StepResult.fault
    | OpCode.DECR =>
      match nth s.memory s.cursor with
      | some v => StepResult.next { s with pc := pc, memory := s.memory.set s.cursor ((v + 255) % 256) }
      | none => StepResult.fault
    | OpCode.RIGHT => StepResult.next { s with pc := pc, cursor := s.cursor + 1 }
    | OpCode.LEFT =>
      if s.cursor = 0 then StepResult.fault
      else StepResult.next { s with pc := pc, cursor := s.cursor - 1 }
    | OpCode.PUT =>
      match nth s.memory s.cursor with
      | some v => StepResult.next { s with pc := pc, output := s.output ++ [v] }
      | none => StepResult.fault
    | OpCode.GET =>
      match s.input with
      | [] => StepResult.next { s with pc := pc }
      | b :: rest =>
        match nth s.memory s.cursor with
        | some _ => StepResult.next { s with pc := pc, memory := s.memory.set s.cursor (b % 256), input := rest }
        | none => StepResult.fault
    | OpCode.OPEN =>
      match nth prog pc with
      | some (Instruction.operand n) =>
        match nth s.memory s.cursor with
        | some v => StepResult.next { s with pc := if v = 0 then n else pc + 1 }
        | none => StepResult.fault
      | _ => StepResult.fault
    | OpCode.CLOSE =>
      match nth prog pc with
      | some (Instruction.operand n) =>
        match nth s.memory s.cursor with
        | some v => StepResult.next { s with pc := if v ≠ 0 then n else pc + 1 }
        | none => StepResult.fault
      | _ => StepResult.fault
    | OpCode.HALT => StepResult.halted s
  | _ => StepResult.fault

/-- One iteration of the dispatch of Engine::runFile in
src/direct_threading_demo.cpp.  This sketch differs from the benchmark
engines in two places: RIGHT and LEFT evaluate std::next(loc) and
std::prev(loc) but discard the result, so the cursor never moves, and the
CLOSE label tests *loc == 0, the same condition as OPEN, instead of
*loc != 0. -/
def stepDemo (prog : List Instruction) (s : MachineState) : StepResult :=
  match nth prog s.pc with
  | some (Instruction.opcode op) =>
    let pc := s.pc + 1
    match op with
    | OpCode.INCR =>
      match nth s.memory s.cursor with
      | some v => StepResult.next { s with pc := pc, memory := s.memory.set s.cursor ((v + 1) % 256) }
      | none => StepResult.fault
    | OpCode.DECR =>
      match nth s.memory s.cursor with
      | some v => StepResult.next { s with pc := pc, memory := s.memory.set s.cursor ((v + 255) % 256) }
      | none => StepResult.fault
    | OpCode.RIGHT => StepResult.next { s with pc := pc }
    | OpCode.LEFT => StepResult.next { s with pc := pc }
    | OpCode.PUT =>
      match nth s.memory s.cursor with
      | some v => StepResult.next { s with pc := pc, output := s.output ++ [v] }
      | none => StepResult.fault
    | OpCode.GET =>
      match s.input with
      | [] => StepResult.next { s with pc := pc }
      | b :: rest =>
        match nth s.memory s.cursor with
        | some _ => StepResult.next { s with pc := pc, memory := s.memory.set s.cursor (b % 256), input := rest }
        | none => StepResult.fault
    | OpCode.OPEN =>
      match nth prog pc with
      | some (Instruction.operand n) =>
        match nth s.memory s.cursor with
        | some v => StepResult.next { s with pc := if v = 0 then n else pc + 1 }
        | none => StepResult.fault
      | _ => StepResult.fault
    | OpCode.CLOSE =>
      match nth prog pc with
      | some (Instruction.operand n) =>
        match nth s.memory s.cursor with
        | some v => StepResult.next { s with pc := if v = 0 then n else pc + 1 }
        | none => StepResult.fault
      | _ => StepResult.fault
    | OpCode.HALT => StepResult.halted s
  | _ => StepResult.fault

/-- Result of running the dispatch loop with a fuel bound: normal halt,
fault (undefined behaviour reached), or fuel exhausted. -/
inductive RunResult where
  | ok (s : MachineState)
  | fault
  | more (s : MachineState)
deriving DecidableEq, Repr

/-- The dispatch loop, iterated at most fuel times. -/
def run (prog : List Instruction) : Nat → MachineState → RunResult
  | 0, s => RunResult.more s
  | fuel + 1, s =>
    match step prog s with
    | StepResult.next s2 => run prog fuel s2
    | StepResult.halted s2 => RunResult.ok s2
    | StepResult.fault => RunResult.fault

/-- The demo dispatch loop of direct_threading_demo.cpp, iterated at most
fuel times. -/
def runDemo (prog : List Instruction) : Nat → MachineState → RunResult
  | 0, s => RunResult.more s
  | fuel + 1, s =>
    match stepDemo prog s with
    | StepResult.next s2 => runDemo prog fuel s2
    | StepResult.halted s2 => RunResult.ok s2
    | StepResult.fault => RunResult.fault

/-- The tape allocated by every Engine constructor: 30000 zeroed cells. -/
def freshMemory : List Nat := List.replicate 30000 0

/-- The machine state at the start of a run method: pc at the first
instruction, cursor at the first tape cell, no output yet. -/
def initState (memory : List Nat) (input : List Nat) : MachineState :=
  ⟨0, 0, memory, input, []⟩

/-- The persistent fields of switch_::Engine: the program vector (shared
with the planter and never cleared) and the tape (allocated once in the
constructor). -/
structure Engine where
  program : List Instruction
  memory : List Nat
deriving DecidableEq, Repr

/-- A freshly constructed Engine. -/
def Engine.new : Engine := ⟨[], freshMemory⟩

/-- One call of switch_::Engine::runMacros: plant the source into the
engine's existing program vector, then run the dispatch loop from
instruction 0 on the engine's existing tape.  Returns the engine as left
afterwards, the bytes written to the output stream, and the unconsumed
input; none when planting hits undefined behaviour or the run faults or
needs more fuel. -/
def engineRun (e : Engine) (src : List Char) (input : List Nat) (fuel : Nat) :
    Option (Engine × List Nat × List Nat) :=
  match plantProgram e.program src with
  | none => none
  | some prog =>
    match run prog fuel (initState e.memory input) with
    | RunResult.ok s => some (⟨prog, s.memory⟩, s.output, s.input)
    | _ => none

/-- Projection of a run result onto the bytes it wrote to the output sink. -/
def outputOf : RunResult → Option (List Nat)
  | RunResult.ok s => some s.output
  | _ => none

/-- The eight instruction characters of the language. -/
def eightSymbols : List Char := ['+', '-', '<', '>', '[', ']', '.', ',']

/-- The instructions planted for a bracket-free stretch of source text: one
opcode per mapped character, skipped characters dropped. -/
def simpleCode (xs : List Char) : List Instruction :=
  xs.filterMap fun c => (charToOpCode c).map Instruction.opcode

/-- On source text containing neither bracket, the planter appends exactly
the per-character opcodes and leaves the loop-nesting stack alone. -/
theorem plantChars_no_brackets (xs : List Char) (hob : '[' ∉ xs) (hcb : ']' ∉ xs) :
    ∀ p idxs, plantChars ⟨p, idxs⟩ xs = some ⟨p ++ simpleCode xs, idxs⟩ := by
  induction xs with
  | nil => intro p idxs; simp [plantChars, simpleCode]
  | cons c cs ih =>
    intro p idxs
    have hc1 : c ≠ '[' := fun h => hob (h ▸ List.mem_cons_self c cs)
    have hc2 : c ≠ ']' := fun h => hcb (h ▸ List.mem_cons_self c cs)
    have hob2 : '[' ∉ cs := fun h => hob (List.mem_cons_of_mem c h)
    have hcb2 : ']' ∉ cs := fun h => hcb (List.mem_cons_of_mem c h)
    cases hop : charToOpCode c with
    | none =>
      simp [plantChars, plantChar, hop, simpleCode, List.filterMap_cons, ih hob2 hcb2]
    | some op =>
      simp only [plantChars, plantChar, hop, hc1, hc2, if_false, ite_false]
      rw [ih hob2 hcb2]
      simp [simpleCode, List.filterMap_cons, hop]

/-- The compiled program for source text open-bracket close-bracket, as the
planter produces it. -/
def progOpenClose : List Instruction :=
  [Instruction.opcode OpCode.OPEN, Instruction.operand 4,
   Instruction.opcode OpCode.CLOSE, Instruction.operand 2,
   Instruction.opcode OpCode.HALT]

/-- C2 counterexample: for the source consisting of one empty loop, the
LoopOpen is at index 0 and the matching LoopClose at index 2; the LoopOpen
operand is 4 = (index of LoopClose) + 2 as claimed, but the LoopClose
operand is 2 = (index of LoopOpen) + 2, not (index of LoopOpen) + 1 as the
claim states. -/
theorem loopClose_operand_not_open_plus_one :
    plantProgram [] ['[', ']'] = some progOpenClose ∧
    progOpenClose[0]? = some (Instruction.opcode OpCode.OPEN) ∧
    progOpenClose[2]? = some (Instruction.opcode OpCode.CLOSE) ∧
    progOpenClose[1]? = some (Instruction.operand (2 + 2)) ∧
    progOpenClose[3]? = some (Instruction.operand 2) ∧
    ¬ progOpenClose[3]? = some (Instruction.operand (0 + 1)) := by
  decide

/-- Planting a concatenation of two source texts plants the first and
continues with the second from the resulting state. -/
theorem plantChars_append (xs ys : List Char) :
    ∀ s, plantChars s (xs ++ ys) =
      match plantChars s xs with
      | none => none
      | some s2 => plantChars s2 ys := by
  induction xs with
  | nil => intro s; simp [plantChars]
  | cons c cs ih =>
    intro s
    simp only [List.cons_append, plantChars]
    cases plantChar s c with
    | none => rfl
    | some s2 => exact ih s2

/-- The program compiled from a single loop around bracket-free text xs:
OPEN at index 0, its operand at index 1, the body, CLOSE at index
(body length) + 2, its operand, the trailing HALT. -/
def singleLoopProgram (xs : List Char) : List Instruction :=
  Instruction.opcode OpCode.OPEN ::
  Instruction.operand (((simpleCode xs).length + 2) + 2) ::
  (simpleCode xs ++
    [Instruction.opcode OpCode.CLOSE, Instruction.operand (0 + 2),
     Instruction.opcode OpCode.HALT])

/-- C2 amended: for a source consisting of a single loop around bracket-free
text, the compiled program is OPEN at index 0, its operand slot at index 1,
the body, CLOSE at index (body length) + 2, the CLOSE operand slot, and the
trailing HALT; the LoopOpen operand equals (index of the LoopClose) + 2 and
the LoopClose operand equals (index of the LoopOpen) + 2, which is the
index of the first body instruction (not LoopOpen index + 1). -/
theorem singleLoop_operands (xs : List Char) (hob : '[' ∉ xs) (hcb : ']' ∉ xs) :
    plantProgram [] ('[' :: (xs ++ [']'])) = some (singleLoopProgram xs) ∧
    (singleLoopProgram xs)[0]? = some (Instruction.opcode OpCode.OPEN) ∧
    (singleLoopProgram xs)[(simpleCode xs).length + 2]? =
      some (Instruction.opcode OpCode.CLOSE) ∧
    (singleLoopProgram xs)[1]? =
      some (Instruction.operand (((simpleCode xs).length + 2) + 2)) ∧
    (singleLoopProgram xs)[((simpleCode xs).length + 2) + 1]? =
      some (Instruction.operand (0 + 2)) := by
  have h1 : plantChar ⟨[], []⟩ '[' =
      some ⟨[Instruction.opcode OpCode.OPEN, Instruction.opcode OpCode.HALT], [1]⟩ := by
    decide
  have h2 := plantChars_no_brackets xs hob hcb
    [Instruction.opcode OpCode.OPEN, Instruction.opcode OpCode.HALT] [1]
  have h3 : plantChars ⟨[], []⟩ ('[' :: (xs ++ [']'])) =
      plantChars ⟨[Instruction.opcode OpCode.OPEN, Instruction.opcode OpCode.HALT], [1]⟩
        (xs ++ [']']) := by
    rw [plantChars, h1]
  have hplant : plantProgram [] ('[' :: (xs ++ [']'])) = some (singleLoopProgram xs) := by
    rw [plantProgram, h3, plantChars_append, h2]
    simp only [plantChars, plantChar, charToOpCode]
    simp only [List.cons_append, List.nil_append, Option.map_some]
    simp [singleLoopProgram, List.length_append, List.set, List.append_assoc]
  refine ⟨hplant, by simp [singleLoopProgram], ?_, by simp [singleLoopProgram], ?_⟩
  · rw [singleLoopProgram,
      show (simpleCode xs).length + 2 = ((simpleCode xs).length + 1) + 1 from rfl,
      List.getElem?_cons_succ, List.getElem?_cons_succ,
      List.getElem?_append_right (le_refl _), Nat.sub_self, List.getElem?_cons_zero]
  · rw [singleLoopProgram,
      show (simpleCode xs).length + 2 + 1 = (((simpleCode xs).length + 1) + 1) + 1 from rfl,
      List.getElem?_cons_succ, List.getElem?_cons_succ,
      List.getElem?_append_right (Nat.le_succ_of_le (le_refl _))]
    simp

/-- The source text plus, move-right, plus, output. -/
def movSrc : List Char := ['+', '>', '+', '.']

/-- The program every planter produces for movSrc. -/
def progMove : List Instruction :=
  [Instruction.opcode OpCode.INCR, Instruction.opcode OpCode.RIGHT,
   Instruction.opcode OpCode.INCR, Instruction.opcode OpCode.PUT,
   Instruction.opcode OpCode.HALT]

/-- C1: the switch engines of Switch.cpp and the label and lambda engines of
ComputedGotos.cpp and main2.cpp have identical step functions, but the
engine of direct_threading_demo.cpp is not observationally equivalent to
them: on the program compiled from movSrc with empty input, the benchmark
engines output the byte 1 while the demo engine outputs the byte 2,
because its move instructions discard the moved cursor. -/
theorem dispatch_equivalence_broken_by_demo :
    (∀ prog s, stepCG prog s = step prog s) ∧
    (∀ prog s, stepTwo prog s = step prog s) ∧
    plantProgram [] movSrc = some progMove ∧
    plantProgramCG [] movSrc = some progMove ∧
    outputOf (run progMove 100 (initState freshMemory [])) = some [1] ∧
    outputOf (runDemo progMove 100 (initState freshMemory [])) = some [2] :=
  ⟨fun _ _ => rfl, fun _ _ => rfl, by decide, by decide, by decide, by decide⟩

/-- C3: compilation does not reject bracket-unbalanced sources.  An
unmatched open bracket compiles to completion, leaving the dummy slot
unresolved and the loop-nesting stack non-empty, and the planted program
still receives the trailing HALT; an unmatched close bracket makes the
planter pop an empty vector, which is undefined behaviour (modelled none),
not an explicit MalformedProgram report. -/
theorem unbalanced_compilation_not_rejected :
    plantChars ⟨[], []⟩ ['['] =
      some ⟨[Instruction.opcode OpCode.OPEN, Instruction.opcode OpCode.HALT], [1]⟩ ∧
    plantProgram [] ['['] =
      some [Instruction.opcode OpCode.OPEN, Instruction.opcode OpCode.HALT,
            Instruction.opcode OpCode.HALT] ∧
    plantChars ⟨[], []⟩ [']'] = none := by
  decide

/-- The program compiled from plus, open, minus, close. -/
def progPlusLoop : List Instruction :=
  [Instruction.opcode OpCode.INCR, Instruction.opcode OpCode.OPEN,
   Instruction.operand 6, Instruction.opcode OpCode.DECR,
   Instruction.opcode OpCode.CLOSE, Instruction.operand 3,
   Instruction.opcode OpCode.HALT]

/-- C4: in the switch engine, CLOSE (at index 4, operand 3 at index 5)
jumps to its operand exactly when the cell is nonzero and falls through
past the operand when it is zero, and OPEN (at index 1, operand 6 at index
2) jumps exactly when the cell is zero; the demo engine of
direct_threading_demo.cpp has CLOSE inverted: it falls through on a
nonzero cell and jumps on a zero cell. -/
theorem close_branch_condition_divergence :
    plantProgram [] ['+', '[', '-', ']'] = some progPlusLoop ∧
    plantProgramCG [] ['+', '[', '-', ']'] = some progPlusLoop ∧
    step progPlusLoop ⟨4, 0, [5], [], []⟩ = StepResult.next ⟨3, 0, [5], [], []⟩ ∧
    step progPlusLoop ⟨4, 0, [0], [], []⟩ = StepResult.next ⟨6, 0, [0], [], []⟩ ∧
    step progPlusLoop ⟨1, 0, [0], [], []⟩ = StepResult.next ⟨6, 0, [0], [], []⟩ ∧
    step progPlusLoop ⟨1, 0, [5], [], []⟩ = StepResult.next ⟨3, 0, [5], [], []⟩ ∧
    stepDemo progPlusLoop ⟨4, 0, [5], [], []⟩ = StepResult.next ⟨6, 0, [5], [], []⟩ ∧
    stepDemo progPlusLoop ⟨4, 0, [0], [], []⟩ = StepResult.next ⟨3, 0, [0], [], []⟩ := by
  decide

/-- C6: the Input instruction stores the next input byte in the current
cell (reduced to the unsigned-char range) and consumes it; with exhausted
input it changes nothing but the program counter, writing no sentinel; and
the get-put source run on a fresh engine with empty input emits exactly
the byte 0, leaving the cell at 0. -/
theorem input_semantics :
    (∀ prog s b rest v, nth prog s.pc = some (Instruction.opcode OpCode.GET) →
       s.input = b :: rest → nth s.memory s.cursor = some v →
       step prog s = StepResult.next
         { s with pc := s.pc + 1,
                  memory := s.memory.set s.cursor (b % 256),
                  input := rest }) ∧
    (∀ prog s, nth prog s.pc = some (Instruction.opcode OpCode.GET) → s.input = [] →
       step prog s = StepResult.next { s with pc := s.pc + 1 }) ∧
    (engineRun Engine.new [',', '.'] [] 100).map (fun r => (r.2.1, nth r.1.memory 0)) =
      some ([0], some 0) ∧
    (engineRun Engine.new [',', '.'] [65] 100).map (fun r => r.2.1) = some [65] := by
  refine ⟨?_, ?_, by decide, by decide⟩
  · intro prog s b rest v hfetch hin hmem
    simp [step, hfetch, hin, hmem]
  · intro prog s hfetch hin
    simp [step, hfetch, hin]

/-- Closed instance of input_semantics: a GET with exhausted input leaves
the tape untouched, and a GET with a pending byte stores it. -/
theorem input_semantics_witness :
    step [Instruction.opcode OpCode.GET] ⟨0, 0, [7], [], []⟩ =
      StepResult.next ⟨1, 0, [7], [], []⟩ ∧
    step [Instruction.opcode OpCode.GET] ⟨0, 0, [7], [65], []⟩ =
      StepResult.next ⟨1, 0, [7].set 0 (65 % 256), [], []⟩ :=
  ⟨input_semantics.2.1 [Instruction.opcode OpCode.GET] ⟨0, 0, [7], [], []⟩ rfl rfl,
   input_semantics.1 [Instruction.opcode OpCode.GET] ⟨0, 0, [7], [65], []⟩ 65 [] 7 rfl rfl rfl⟩

/-- C7 counterexample: the NUL character is outside the eight-symbol
instruction alphabet, yet compiling the source consisting of one NUL
character does not yield a program with only the single trailing Halt: the
character is found in the opcode map (it maps to HALT) and is planted,
giving a two-instruction program. -/
theorem nul_character_not_skipped :
    '\x00' ∉ eightSymbols ∧
    charToOpCode '\x00' = some OpCode.HALT ∧
    plantProgram [] ['\x00'] =
      some [Instruction.opcode OpCode.HALT, Instruction.opcode OpCode.HALT] ∧
    plantProgram [] ['\x00'] ≠ some [Instruction.opcode OpCode.HALT] := by
  decide

/-- The planter ignores every character with no opcode-map entry. -/
theorem plantChars_skips (src : List Char) (h : ∀ c ∈ src, charToOpCode c = none) :
    ∀ s, plantChars s src = some s := by
  induction src with
  | nil => intro s; rfl
  | cons c cs ih =>
    intro s
    have hc : charToOpCode c = none := h c (List.mem_cons_self c cs)
    have ih2 := ih fun d hd => h d (List.mem_cons_of_mem c hd)
    simp [plantChars, plantChar, hc, ih2]

/-- C7 amended: characters with no entry in the character-to-opcode map are
skipped with no effect on the compiled program: a source made only of such
characters compiles to the single trailing Halt, and running it on a fresh
engine emits nothing and leaves the all-zero tape.  The map contains the
eight instruction symbols and additionally NUL, so the skipped characters
are exactly those outside the eight-symbol alphabet other than NUL. -/
theorem unmapped_characters_skipped (src : List Char)
    (h : ∀ c ∈ src, charToOpCode c = none) :
    plantProgram [] src = some [Instruction.opcode OpCode.HALT] ∧
    engineRun Engine.new src [] 1 =
      some (⟨[Instruction.opcode OpCode.HALT], freshMemory⟩, [], []) ∧
    (∀ c ∈ eightSymbols, charToOpCode c ≠ none) := by
  have hplant : plantProgram [] src = some [Instruction.opcode OpCode.HALT] := by
    rw [plantProgram, plantChars_skips src h]
    rfl
  refine ⟨hplant, ?_, ?_⟩
  · rw [engineRun]
    have h2 : plantProgram Engine.new.program src = some [Instruction.opcode OpCode.HALT] :=
      hplant
    rw [h2]
    rfl
  · intro c hc
    simp only [eightSymbols, List.mem_cons, List.not_mem_nil, or_false] at hc
    rcases hc with h | h | h | h | h | h | h | h <;> subst h <;> decide

/-- Closed instance of unmapped_characters_skipped at a source text with no
instruction characters. -/
theorem unmapped_characters_skipped_witness :
    plantProgram [] ['h', 'e', 'l', 'l', 'o', ' ', 'w', 'o', 'r', 'l', 'd'] =
      some [Instruction.opcode OpCode.HALT] ∧
    engineRun Engine.new ['h', 'e', 'l', 'l', 'o', ' ', 'w', 'o', 'r', 'l', 'd'] [] 1 =
      some (⟨[Instruction.opcode OpCode.HALT], freshMemory⟩, [], []) ∧
    (∀ c ∈ eightSymbols, charToOpCode c ≠ none) :=
  unmapped_characters_skipped ['h', 'e', 'l', 'l', 'o', ' ', 'w', 'o', 'r', 'l', 'd']
    (by decide)

set_option maxRecDepth 40000 in
/-- C8: Increment adds one and Decrement subtracts one to the current cell
modulo 256 (the unsigned-char arithmetic of the tape), and running 256
consecutive Increment instructions followed by one Output on a fresh
engine emits exactly the byte 0. -/
theorem cell_wraparound :
    (∀ prog s v, nth prog s.pc = some (Instruction.opcode OpCode.INCR) →
        nth s.memory s.cursor = some v →
        step prog s = StepResult.next
          { s with pc := s.pc + 1, memory := s.memory.set s.cursor ((v + 1) % 256) }) ∧
    (∀ prog s v, nth prog s.pc = some (Instruction.opcode OpCode.DECR) →
        nth s.memory s.cursor = some v →
        step prog s = StepResult.next
          { s with pc := s.pc + 1, memory := s.memory.set s.cursor ((v + 255) % 256) }) ∧
    (255 + 1) % 256 = 0 ∧
    (engineRun Engine.new (List.replicate 256 '+' ++ ['.']) [] 300).map
      (fun r => r.2.1) = some [0] := by
  refine ⟨?_, ?_, by decide, by decide⟩
  · intro prog s v hfetch hmem
    simp [step, hfetch, hmem]
  · intro prog s v hfetch hmem
    simp [step, hfetch, hmem]

/-- Closed instance of cell_wraparound: an Increment on a cell holding 255
wraps it to 0. -/
theorem cell_wraparound_witness :
    step [Instruction.opcode OpCode.INCR] ⟨0, 0, [255], [], []⟩ =
      StepResult.next ⟨1, 0, [255].set 0 ((255 + 1) % 256), [], []⟩ :=
  cell_wraparound.1 [Instruction.opcode OpCode.INCR] ⟨0, 0, [255], [], []⟩ 255 rfl rfl

/-- The dispatch loop presented as a transition relation, one constructor
per case of the switch in switch_::Engine::runMacros.  Used to state that
execution is deterministic: the relation relates a state to at most one
result. -/
inductive StepRel (prog : List Instruction) (s : MachineState) : StepResult → Prop where
  | incr (v : Nat) :
      nth prog s.pc = some (Instruction.opcode OpCode.INCR) →
      nth s.memory s.cursor = some v →
      StepRel prog s (StepResult.next
        { s with pc := s.pc + 1, memory := s.memory.set s.cursor ((v + 1) % 256) })
  | decr (v : Nat) :
      nth prog s.pc = some (Instruction.opcode OpCode.DECR) →
      nth s.memory s.cursor = some v →
      StepRel prog s (StepResult.next
        { s with pc := s.pc + 1, memory := s.memory.set s.cursor ((v + 255) % 256) })
  | right :
      nth prog s.pc = some (Instruction.opcode OpCode.RIGHT) →
      StepRel prog s (StepResult.next { s with pc := s.pc + 1, cursor := s.cursor + 1 })
  | left :
      nth prog s.pc = some (Instruction.opcode OpCode.LEFT) →
      s.cursor ≠ 0 →
      StepRel prog s (StepResult.next { s with pc := s.pc + 1, cursor := s.cursor - 1 })
  | put (v : Nat) :
      nth prog s.pc = some (Instruction.opcode OpCode.PUT) →
      nth s.memory s.cursor = some v →
      StepRel prog s (StepResult.next { s with pc := s.pc + 1, output := s.output ++ [v] })
  | getEof :
      nth prog s.pc = some (Instruction.opcode OpCode.GET) →
      s.input = [] →
      StepRel prog s (StepResult.next { s with pc := s.pc + 1 })
  | getByte (b : Nat) (rest : List Nat) (v : Nat) :
      nth prog s.pc = some (Instruction.opcode OpCode.GET) →
      s.input = b :: rest →
      nth s.memory s.cursor = some v →
      StepRel prog s (StepResult.next
        { s with pc := s.pc + 1, memory := s.memory.set s.cursor (b % 256), input := rest })
  | openJump (n v : Nat) :
      nth prog s.pc = some (Instruction.opcode OpCode.OPEN) →
      nth prog (s.pc + 1) = some (Instruction.operand n) →
      nth s.memory s.cursor = some v →
      v = 0 →
      StepRel prog s (StepResult.next { s with pc := n })
  | openFall (n v : Nat) :
      nth prog s.pc = some (Instruction.opcode OpCode.OPEN) →
      nth prog (s.pc + 1) = some (Instruction.operand n) →
      nth s.memory s.cursor = some v →
      v ≠ 0 →
      StepRel prog s (StepResult.next { s with pc := s.pc + 1 + 1 })
  | closeJump (n v : Nat) :
      nth prog s.pc = some (Instruction.opcode OpCode.CLOSE) →
      nth prog (s.pc + 1) = some (Instruction.operand n) →
      nth s.memory s.cursor = some v →
      v ≠ 0 →
      StepRel prog s (StepResult.next { s with pc := n })
  | closeFall (n v : Nat) :
      nth prog s.pc = some (Instruction.opcode OpCode.CLOSE) →
      nth prog (s.pc + 1) = some (Instruction.operand n) →
      nth s.memory s.cursor = some v →
      v = 0 →
      StepRel prog s (StepResult.next { s with pc := s.pc + 1 + 1 })
  | haltStep :
      nth prog s.pc = some (Instruction.opcode OpCode.HALT) →
      StepRel prog s (StepResult.halted s)

/-- Soundness of the relational dispatch: what the relation derives is
exactly what the step function computes. -/
theorem stepRel_step {prog : List Instruction} {s : MachineState} {r : StepResult}
    (h : StepRel prog s r) : step prog s = r := by
  cases h <;> simp [step, *]

/-- Completeness of the relational dispatch on non-faulting steps. -/
theorem step_stepRel (prog : List Instruction) (s : MachineState) (r : StepResult)
    (h : step prog s = r) (hr : r ≠ StepResult.fault) : StepRel prog s r := by
  cases hfetch : nth prog s.pc with
  | none => simp [step, hfetch] at h; exact absurd h.symm hr
  | some instr =>
    cases instr with
    | operand n => simp [step, hfetch] at h; exact absurd h.symm hr
    | nullSlot => simp [step, hfetch] at h; exact absurd h.symm hr
    | opcode op =>
      cases op with
      | INCR =>
        cases hmem : nth s.memory s.cursor with
        | none => simp [step, hfetch, hmem] at h; exact absurd h.symm hr
        | some v =>
          have hrel := StepRel.incr v hfetch hmem
          exact ((stepRel_step hrel).symm.trans h) ▸ hrel
      | DECR =>
        cases hmem : nth s.memory s.cursor with
        | none => simp [step, hfetch, hmem] at h; exact absurd h.symm hr
        | some v =>
          have hrel := StepRel.decr v hfetch hmem
          exact ((stepRel_step hrel).symm.trans h) ▸ hrel
      | RIGHT =>
        have hrel := StepRel.right hfetch
        exact ((stepRel_step hrel).symm.trans h) ▸ hrel
      | LEFT =>
        by_cases hc : s.cursor = 0
        · simp [step, hfetch, hc] at h; exact absurd h.symm hr
        · have hrel := StepRel.left hfetch hc
          exact ((stepRel_step hrel).symm.trans h) ▸ hrel
      | PUT =>
        cases hmem : nth s.memory s.cursor with
        | none => simp [step, hfetch, hmem] at h; exact absurd h.symm hr
        | some v =>
          have hrel := StepRel.put v hfetch hmem
          exact ((stepRel_step hrel).symm.trans h) ▸ hrel
      | GET =>
        cases hin : s.input with
        | nil =>
          have hrel := StepRel.getEof hfetch hin
          exact ((stepRel_step hrel).symm.trans h) ▸ hrel
        | cons b rest =>
          cases hmem : nth s.memory s.cursor with
          | none => simp [step, hfetch, hin, hmem] at h; exact absurd h.symm hr
          | some v =>
            have hrel := StepRel.getByte b rest v hfetch hin hmem
            exact ((stepRel_step hrel).symm.trans h) ▸ hrel
      | OPEN =>
        cases hop : nth prog (s.pc + 1) with
        | none => simp [step, hfetch, hop] at h; exact absurd h.symm hr
        | some slot =>
          cases slot with
          | opcode op2 => simp [step, hfetch, hop] at h; exact absurd h.symm hr
          | nullSlot => simp [step, hfetch, hop] at h; exact absurd h.symm hr
          | operand n =>
            cases hmem : nth s.memory s.cursor with
            | none => simp [step, hfetch, hop, hmem] at h; exact absurd h.symm hr
            | some v =>
              by_cases hv : v = 0
              · have hrel := StepRel.openJump n v hfetch hop hmem hv
                exact ((stepRel_step hrel).symm.trans h) ▸ hrel
              · have hrel := StepRel.openFall n v hfetch hop hmem hv
                exact ((stepRel_step hrel).symm.trans h) ▸ hrel
      | CLOSE =>
        cases hop : nth prog (s.pc + 1) with
        | none => simp [step, hfetch, hop] at h; exact absurd h.symm hr
        | some slot =>
          cases slot with
          | opcode op2 => simp [step, hfetch, hop] at h; exact absurd h.symm hr
          | nullSlot => simp [step, hfetch, hop] at h; exact absurd h.symm hr
          | operand n =>
            cases hmem : nth s.memory s.cursor with
            | none => simp [step, hfetch, hop, hmem] at h; exact absurd h.symm hr
            | some v =>
              by_cases hv : v = 0
              · have hrel := StepRel.closeFall n v hfetch hop hmem hv
                exact ((stepRel_step hrel).symm.trans h) ▸ hrel
              · have hrel := StepRel.closeJump n v hfetch hop hmem hv
                exact ((stepRel_step hrel).symm.trans h) ▸ hrel
      | HALT =>
        have hrel := StepRel.haltStep hfetch
        exact ((stepRel_step hrel).symm.trans h) ▸ hrel

/-- A complete execution in relational form: finitely many dispatch
transitions ending at a HALT. -/
inductive RunsTo (prog : List Instruction) : MachineState → MachineState → Prop where
  | fin : ∀ {s t}, StepRel prog s (StepResult.halted t) → RunsTo prog s t
  | next : ∀ {s s2 t}, StepRel prog s (StepResult.next s2) → RunsTo prog s2 t → RunsTo prog s t

/-- A fuelled run reaching a normal halt is a complete execution. -/
theorem run_ok_runsTo (prog : List Instruction) :
    ∀ fuel s t, run prog fuel s = RunResult.ok t → RunsTo prog s t := by
  intro fuel
  induction fuel with
  | zero => intro s t h; simp [run] at h
  | succ n ih =>
    intro s t h
    rw [run] at h
    cases hs : step prog s with
    | next s2 =>
      rw [hs] at h
      exact RunsTo.next (step_stepRel prog s _ hs (by simp)) (ih s2 t h)
    | halted s2 =>
      rw [hs] at h
      cases h
      exact RunsTo.fin (step_stepRel prog s _ hs (by simp))
    | fault => rw [hs] at h; cases h

/-- C5: execution is deterministic.  Every normally halting fuelled run is
a complete execution in the relational sense, and any two complete
executions of the same compiled program from the same initial state (same
tape, same pending input) end in the same state, so repeated executions
produce identical output sequences and identical final tape contents. -/
theorem run_deterministic (prog : List Instruction) :
    (∀ fuel s t, run prog fuel s = RunResult.ok t → RunsTo prog s t) ∧
    (∀ s t1 t2, RunsTo prog s t1 → RunsTo prog s t2 →
      t1 = t2 ∧ t1.output = t2.output ∧ t1.memory = t2.memory) := by
  refine ⟨run_ok_runsTo prog, ?_⟩
  intro s t1 t2 h1 h2
  suffices h : t1 = t2 by exact ⟨h, by rw [h], by rw [h]⟩
  induction h1 generalizing t2 with
  | fin hs =>
    cases h2 with
    | fin hs2 =>
      have h3 := (stepRel_step hs).symm.trans (stepRel_step hs2)
      injection h3
    | next hs2 hr2 =>
      have h3 := (stepRel_step hs).symm.trans (stepRel_step hs2)
      cases h3
  | next hs hr ih =>
    cases h2 with
    | fin hs2 =>
      have h3 := (stepRel_step hs).symm.trans (stepRel_step hs2)
      cases h3
    | next hs2 hr2 =>
      have h3 := (stepRel_step hs).symm.trans (stepRel_step hs2)
      injection h3 with h4
      subst h4
      exact ih t2 hr2

/-- Closed instance of run_deterministic: two fuelled runs of the same
two-instruction program from the same state give the same final state,
output and tape. -/
theorem run_deterministic_witness :
    (⟨1, 0, [7], [], [7]⟩ : MachineState) = ⟨1, 0, [7], [], [7]⟩ ∧
    ([7] : List Nat) = [7] ∧ ([7] : List Nat) = [7] :=
  (run_deterministic [Instruction.opcode OpCode.PUT, Instruction.opcode OpCode.HALT]).2
    ⟨0, 0, [7], [], []⟩ ⟨1, 0, [7], [], [7]⟩ ⟨1, 0, [7], [], [7]⟩
    ((run_deterministic [Instruction.opcode OpCode.PUT, Instruction.opcode OpCode.HALT]).1
      2 ⟨0, 0, [7], [], []⟩ ⟨1, 0, [7], [], [7]⟩ rfl)
    ((run_deterministic [Instruction.opcode OpCode.PUT, Instruction.opcode OpCode.HALT]).1
      2 ⟨0, 0, [7], [], []⟩ ⟨1, 0, [7], [], [7]⟩ rfl)

/-- A successful lookup implies the index is inside the list. -/
theorem nth_some_lt {α : Type} {l : List α} {j : Nat} {x : α} (h : nth l j = some x) :
    j < l.length := by
  rw [nth_eq_getElem?] at h
  exact (List.getElem?_eq_some.mp h).1

/-- Appending on the right preserves successful lookups. -/
theorem nth_append_of_some {α : Type} {l l2 : List α} {j : Nat} {x : α}
    (h : nth l j = some x) : nth (l ++ l2) j = some x := by
  rw [nth_eq_getElem?] at h ⊢
  rw [List.getElem?_append_left (nth_some_lt (by rw [nth_eq_getElem?]; exact h))]
  exact h

/-- Lookup at the length of the left part of an append. -/
theorem nth_append_length {α : Type} (l : List α) (x : α) (l2 : List α) :
    nth (l ++ x :: l2) l.length = some x := by
  rw [nth_eq_getElem?, List.getElem?_append_right (le_refl _), Nat.sub_self]
  simp

/-- Writing one slot leaves lookups of other slots unchanged. -/
theorem nth_set_ne {α : Type} (l : List α) (k j : Nat) (v : α) (h : k ≠ j) :
    nth (l.set k v) j = nth l j := by
  rw [nth_eq_getElem?, nth_eq_getElem?, List.getElem?_set_ne h]

/-- Reading back a written slot. -/
theorem nth_set_self {α : Type} (l : List α) (k : Nat) (v : α) (h : k < l.length) :
    nth (l.set k v) k = some v := by
  rw [nth_eq_getElem?, List.getElem?_set_self]
  simp [h]

/-- Only the open bracket maps to the OPEN opcode. -/
theorem charToOpCode_open {ch : Char} (h : charToOpCode ch = some OpCode.OPEN) :
    ch = '[' := by
  unfold charToOpCode at h
  split at h <;> simp_all

/-- Only the close bracket maps to the CLOSE opcode. -/
theorem charToOpCode_close {ch : Char} (h : charToOpCode ch = some OpCode.CLOSE) :
    ch = ']' := by
  unfold charToOpCode at h
  split at h <;> simp_all

/-- Structure of fully resolved code over the half-open range [lo, hi) of
the program p: a sequence of non-bracket instructions and complete loops,
in which every OPEN at a position i carries at i + 1 the operand mid + 2
for its matching CLOSE at position mid, and that CLOSE carries at mid + 1
the operand i + 2, the position of the first instruction of the loop body.
This is exactly the shape switch_::CodePlanter produces for balanced
sources. -/
inductive Seg (p : List Instruction) : Nat → Nat → Prop where
  | nil (lo : Nat) : Seg p lo lo
  | simple (lo hi : Nat) (op : OpCode) :
      nth p lo = some (Instruction.opcode op) →
      op ≠ OpCode.OPEN → op ≠ OpCode.CLOSE →
      Seg p (lo + 1) hi → Seg p lo hi
  | loop (lo mid hi : Nat) :
      nth p lo = some (Instruction.opcode OpCode.OPEN) →
      nth p (lo + 1) = some (Instruction.operand (mid + 2)) →
      Seg p (lo + 2) mid →
      nth p mid = some (Instruction.opcode OpCode.CLOSE) →
      nth p (mid + 1) = some (Instruction.operand (lo + 2)) →
      Seg p (mid + 2) hi →
      Seg p lo hi

/-- A segment range is ordered. -/
theorem Seg.mono {p : List Instruction} : ∀ {lo hi : Nat}, Seg p lo hi → lo ≤ hi := by
  intro lo hi h
  induction h with
  | nil lo => exact le_refl lo
  | simple lo hi op hf hno hnc hrest ih => omega
  | loop lo mid hi hopen hoper hbody hclose hcoper hrest ihb ihr => omega

/-- A derivation only contains successful lookups inside its range, so any
list with the same successful lookups on the range carries the same
derivation. -/
theorem Seg.stable {p q : List Instruction} : ∀ {lo hi : Nat}, Seg p lo hi →
    (∀ j x, lo ≤ j → j < hi → nth p j = some x → nth q j = some x) → Seg q lo hi := by
  intro lo hi hseg
  induction hseg with
  | nil lo => intro _; exact Seg.nil lo
  | simple lo hi op hf hno hnc hrest ih =>
    intro hpq
    have hlohi : lo + 1 ≤ hi := hrest.mono
    exact Seg.simple lo hi op (hpq lo _ (le_refl lo) (by omega) hf) hno hnc
      (ih fun j x hj1 hj2 hx => hpq j x (by omega) hj2 hx)
  | loop lo mid hi hopen hoper hbody hclose hcoper hrest ihb ihr =>
    intro hpq
    have h1 : lo + 2 ≤ mid := hbody.mono
    have h2 : mid + 2 ≤ hi := hrest.mono
    exact Seg.loop lo mid hi
      (hpq lo _ (le_refl lo) (by omega) hopen)
      (hpq (lo + 1) _ (by omega) (by omega) hoper)
      (ihb fun j x hj1 hj2 hx => hpq j x (by omega) (by omega) hx)
      (hpq mid _ (by omega) (by omega) hclose)
      (hpq (mid + 1) _ (by omega) (by omega) hcoper)
      (ihr fun j x hj1 hj2 hx => hpq j x (by omega) hj2 hx)

/-- Two adjacent segments concatenate. -/
theorem Seg.append {p : List Instruction} {hi : Nat} :
    ∀ {lo mid : Nat}, Seg p lo mid → Seg p mid hi → Seg p lo hi := by
  intro lo mid h1
  induction h1 with
  | nil lo2 => intro h2; exact h2
  | simple lo2 hi2 op hf hno hnc hrest ih =>
    intro h2
    exact Seg.simple lo2 hi op hf hno hnc (ih h2)
  | loop lo2 mid2 hi2 hopen hoper hbody hclose hcoper hrest ihb ihr =>
    intro h2
    exact Seg.loop lo2 mid2 hi hopen hoper hbody hclose hcoper (ihr h2)

/-- Every operand stored inside a segment is bounded by the end of the
segment. -/
theorem seg_operand_bound {p : List Instruction} : ∀ {lo hi : Nat}, Seg p lo hi →
    ∀ j v, lo ≤ j → j < hi → nth p j = some (Instruction.operand v) → v ≤ hi := by
  intro lo hi hseg
  induction hseg with
  | nil lo => intro j v h1 h2 _; omega
  | simple lo hi op hf hno hnc hrest ih =>
    intro j v hj1 hj2 hjv
    rcases Nat.eq_or_lt_of_le hj1 with heq | hlt
    · subst heq
      have := hf.symm.trans hjv
      simp at this
    · exact ih j v (by omega) hj2 hjv
  | loop lo mid hi hopen hoper hbody hclose hcoper hrest ihb ihr =>
    intro j v hj1 hj2 hjv
    have h1 : lo + 2 ≤ mid := hbody.mono
    have h2 : mid + 2 ≤ hi := hrest.mono
    have hsplit : j = lo ∨ j = lo + 1 ∨ (lo + 2 ≤ j ∧ j < mid) ∨ j = mid ∨ j = mid + 1 ∨
        (mid + 2 ≤ j ∧ j < hi) := by omega
    rcases hsplit with hj | hj | hj | hj | hj | hj
    · subst hj
      have := hopen.symm.trans hjv
      simp at this
    · subst hj
      have := hoper.symm.trans hjv
      simp only [Option.some.injEq, Instruction.operand.injEq] at this
      omega
    · have := ihb j v hj.1 hj.2 hjv
      omega
    · subst hj
      have := hclose.symm.trans hjv
      simp at this
    · subst hj
      have := hcoper.symm.trans hjv
      simp only [Option.some.injEq, Instruction.operand.injEq] at this
      omega
    · exact ihr j v hj.1 hj.2 hjv

/-- A set P of valid instruction positions for the range [lo, hi) of p,
closed under the dispatch successors; hi itself plays the role of the exit
position of the range.  Every valid position holds an opcode; a non-bracket
opcode falls through to a valid position or the exit; OPEN and CLOSE have a
resolved integer operand in the following slot, and both their fall-through
and their jump target are valid positions or the exit. -/
structure PosOk (p : List Instruction) (lo hi : Nat) (P : Nat → Prop) : Prop where
  head : P lo ∨ lo = hi
  mem_opcode : ∀ i, P i → ∃ op, nth p i = some (Instruction.opcode op)
  mem_simple : ∀ i, P i → ∀ op, nth p i = some (Instruction.opcode op) →
      op ≠ OpCode.OPEN → op ≠ OpCode.CLOSE → (P (i + 1) ∨ i + 1 = hi)
  mem_open : ∀ i, P i → nth p i = some (Instruction.opcode OpCode.OPEN) →
      ∃ n, nth p (i + 1) = some (Instruction.operand n) ∧
        (P (i + 2) ∨ i + 2 = hi) ∧ (P n ∨ n = hi)
  mem_close : ∀ i, P i → nth p i = some (Instruction.opcode OpCode.CLOSE) →
      ∃ n, nth p (i + 1) = some (Instruction.operand n) ∧
        (P (i + 2) ∨ i + 2 = hi) ∧ (P n ∨ n = hi)
  mem_range : ∀ i, P i → lo ≤ i ∧ i < hi

/-- Every segment admits a closed set of valid positions. -/
theorem seg_posOk {p : List Instruction} : ∀ {lo hi : Nat}, Seg p lo hi →
    ∃ P : Nat → Prop, PosOk p lo hi P := by
  intro lo hi hseg
  induction hseg with
  | nil lo =>
    exact ⟨fun _ => False,
      { head := Or.inr rfl, mem_opcode := fun i h => h.elim,
        mem_simple := fun i h => h.elim, mem_open := fun i h => h.elim,
        mem_close := fun i h => h.elim, mem_range := fun i h => h.elim }⟩
  | simple lo hi op hf hno hnc hrest ih =>
    obtain ⟨P, hP⟩ := ih
    have hlohi : lo + 1 ≤ hi := hrest.mono
    refine ⟨fun i => i = lo ∨ P i, ?_⟩
    constructor
    · exact Or.inl (Or.inl rfl)
    · intro i hmem
      rcases hmem with hmem | hmem
      · exact ⟨op, hmem ▸ hf⟩
      · exact hP.mem_opcode i hmem
    · intro i hmem op2 hf2 hno2 hnc2
      rcases hmem with hmem | hmem
      · subst hmem
        exact (hP.head).imp Or.inr id
      · exact (hP.mem_simple i hmem op2 hf2 hno2 hnc2).imp Or.inr id
    · intro i hmem hf2
      rcases hmem with hmem | hmem
      · subst hmem
        have h3 := hf.symm.trans hf2
        simp only [Option.some.injEq, Instruction.opcode.injEq] at h3
        exact absurd h3 hno
      · obtain ⟨n, hn, ha, hb⟩ := hP.mem_open i hmem hf2
        exact ⟨n, hn, ha.imp Or.inr id, hb.imp Or.inr id⟩
    · intro i hmem hf2
      rcases hmem with hmem | hmem
      · subst hmem
        have h3 := hf.symm.trans hf2
        simp only [Option.some.injEq, Instruction.opcode.injEq] at h3
        exact absurd h3 hnc
      · obtain ⟨n, hn, ha, hb⟩ := hP.mem_close i hmem hf2
        exact ⟨n, hn, ha.imp Or.inr id, hb.imp Or.inr id⟩
    · intro i hmem
      rcases hmem with hmem | hmem
      · subst hmem; omega
      · have := hP.mem_range i hmem; omega
  | loop lo mid hi hopen hoper hbody hclose hcoper hrest ihb ihr =>
    obtain ⟨Pb, hPb⟩ := ihb
    obtain ⟨Pr, hPr⟩ := ihr
    have h1 : lo + 2 ≤ mid := hbody.mono
    have h2 : mid + 2 ≤ hi := hrest.mono
    refine ⟨fun i => i = lo ∨ i = mid ∨ Pb i ∨ Pr i, ?_⟩
    have liftb : ∀ j, (Pb j ∨ j = mid) →
        (j = lo ∨ j = mid ∨ Pb j ∨ Pr j) := by
      intro j hj
      rcases hj with hj | hj
      · exact Or.inr (Or.inr (Or.inl hj))
      · exact Or.inr (Or.inl hj)
    have liftr : ∀ j, (Pr j ∨ j = hi) →
        ((j = lo ∨ j = mid ∨ Pb j ∨ Pr j) ∨ j = hi) := by
      intro j hj
      rcases hj with hj | hj
      · exact Or.inl (Or.inr (Or.inr (Or.inr hj)))
      · exact Or.inr hj
    constructor
    · exact Or.inl (Or.inl rfl)
    · intro i hmem
      rcases hmem with hmem | hmem | hmem | hmem
      · exact ⟨OpCode.OPEN, hmem ▸ hopen⟩
      · exact ⟨OpCode.CLOSE, hmem ▸ hclose⟩
      · exact hPb.mem_opcode i hmem
      · exact hPr.mem_opcode i hmem
    · intro i hmem op2 hf2 hno2 hnc2
      rcases hmem with hmem | hmem | hmem | hmem
      · subst hmem
        have h3 := hopen.symm.trans hf2
        simp only [Option.some.injEq, Instruction.opcode.injEq] at h3
        exact absurd h3.symm hno2
      · subst hmem
        have h3 := hclose.symm.trans hf2
        simp only [Option.some.injEq, Instruction.opcode.injEq] at h3
        exact absurd h3.symm hnc2
      · exact Or.inl (liftb _ (hPb.mem_simple i hmem op2 hf2 hno2 hnc2))
      · exact liftr _ (hPr.mem_simple i hmem op2 hf2 hno2 hnc2)
    · intro i hmem hf2
      rcases hmem with hmem | hmem | hmem | hmem
      · subst hmem
        refine ⟨mid + 2, hoper, Or.inl (liftb _ hPb.head), liftr _ hPr.head⟩
      · subst hmem
        have h3 := hclose.symm.trans hf2
        simp only [Option.some.injEq, Instruction.opcode.injEq] at h3
        cases h3
      · obtain ⟨n, hn, ha, hb⟩ := hPb.mem_open i hmem hf2
        exact ⟨n, hn, Or.inl (liftb _ ha), Or.inl (liftb _ hb)⟩
      · obtain ⟨n, hn, ha, hb⟩ := hPr.mem_open i hmem hf2
        exact ⟨n, hn, liftr _ ha, liftr _ hb⟩
    · intro i hmem hf2
      rcases hmem with hmem | hmem | hmem | hmem
      · subst hmem
        have h3 := hopen.symm.trans hf2
        simp only [Option.some.injEq, Instruction.opcode.injEq] at h3
        cases h3
      · subst hmem
        refine ⟨lo + 2, hcoper, liftr _ hPr.head, Or.inl (liftb _ hPb.head)⟩
      · obtain ⟨n, hn, ha, hb⟩ := hPb.mem_close i hmem hf2
        exact ⟨n, hn, Or.inl (liftb _ ha), Or.inl (liftb _ hb)⟩
      · obtain ⟨n, hn, ha, hb⟩ := hPr.mem_close i hmem hf2
        exact ⟨n, hn, liftr _ ha, liftr _ hb⟩
    · intro i hmem
      rcases hmem with hmem | hmem | hmem | hmem
      · subst hmem; omega
      · subst hmem; omega
      · have := hPb.mem_range i hmem; omega
      · have := hPr.mem_range i hmem; omega

/-- Invariant of the planter while scanning: reading the loop-nesting
stack outermost first (the reverse of the stored stack), the program
splits into finished segments separated by pending OPEN-plus-dummy pairs.
Each listed index is a pending dummy slot whose OPEN sits just before it;
the part after the innermost dummy slot is a finished segment reaching the
current end of the program. -/
def ShapeR (p : List Instruction) : Nat → List Nat → Prop
  | base, [] => Seg p base p.length
  | base, i :: out =>
      base + 1 ≤ i ∧ nth p (i - 1) = some (Instruction.opcode OpCode.OPEN) ∧
      Seg p base (i - 1) ∧ ShapeR p (i + 1) out

/-- The base of a planter shape is inside the program. -/
theorem shapeR_le_length (p : List Instruction) :
    ∀ out base, ShapeR p base out → base ≤ p.length := by
  intro out
  induction out with
  | nil =>
    intro base h
    exact (show Seg p base p.length from h).mono
  | cons i out ih =>
    intro base h
    obtain ⟨h1, h2, h3, h4⟩ := h
    have := ih (i + 1) h4
    omega

/-- Every pending dummy index lies strictly past the base of the shape. -/
theorem shapeR_mem_le (p : List Instruction) :
    ∀ out base, ShapeR p base out → ∀ i ∈ out, base + 1 ≤ i := by
  intro out
  induction out with
  | nil => intro base h i hi; cases hi
  | cons j out ih =>
    intro base h i hi
    obtain ⟨h1, h2, h3, h4⟩ := h
    rcases List.mem_cons.mp hi with hi | hi
    · omega
    · have := ih (j + 1) h4 i hi
      omega

/-- Planting one non-bracket opcode at the end of the program preserves
the planter shape. -/
theorem shapeR_plant_simple (x : OpCode) (hxo : x ≠ OpCode.OPEN) (hxc : x ≠ OpCode.CLOSE)
    (p : List Instruction) :
    ∀ out base, ShapeR p base out →
      ShapeR (p ++ [Instruction.opcode x]) base out := by
  intro out
  induction out with
  | nil =>
    intro base h
    show Seg (p ++ [Instruction.opcode x]) base (p ++ [Instruction.opcode x]).length
    have hstep : Seg (p ++ [Instruction.opcode x]) p.length (p.length + 1) :=
      Seg.simple p.length (p.length + 1) x (nth_append_length p _ []) hxo hxc (Seg.nil _)
    have hbase : Seg (p ++ [Instruction.opcode x]) base p.length :=
      Seg.stable (show Seg p base p.length from h)
        (fun j y hj1 hj2 hy => nth_append_of_some hy)
    have hall := hbase.append hstep
    simpa [List.length_append] using hall
  | cons i out ih =>
    intro base h
    obtain ⟨h1, h2, h3, h4⟩ := h
    exact ⟨h1, nth_append_of_some h2,
      h3.stable (fun j y hj1 hj2 hy => nth_append_of_some hy), ih (i + 1) h4⟩

/-- Planting an OPEN and its dummy slot extends the shape with one more
pending index, the index of the dummy slot. -/
theorem shapeR_plant_open (p : List Instruction) :
    ∀ out base, ShapeR p base out →
      ShapeR (p ++ [Instruction.opcode OpCode.OPEN, Instruction.opcode OpCode.HALT]) base
        (out ++ [p.length + 1]) := by
  intro out
  induction out with
  | nil =>
    intro base h
    have hs : Seg p base p.length := h
    refine ⟨by have := hs.mono; omega, ?_, ?_, ?_⟩
    · show nth _ (p.length + 1 - 1) = _
      simp only [Nat.add_sub_cancel]
      exact nth_append_length p _ _
    · show Seg _ base (p.length + 1 - 1)
      simp only [Nat.add_sub_cancel]
      exact hs.stable (fun j y hj1 hj2 hy => nth_append_of_some hy)
    · show Seg _ (p.length + 1 + 1) _
      have hlen : (p ++ [Instruction.opcode OpCode.OPEN,
          Instruction.opcode OpCode.HALT]).length = p.length + 1 + 1 := by
        simp [List.length_append]
      rw [hlen]
      exact Seg.nil _
  | cons i out ih =>
    intro base h
    obtain ⟨h1, h2, h3, h4⟩ := h
    exact ⟨h1, nth_append_of_some h2,
      h3.stable (fun j y hj1 hj2 hy => nth_append_of_some hy), ih (i + 1) h4⟩

/-- The program transformation the planter performs on a close bracket,
with pending dummy slot i: append the CLOSE opcode, overwrite slot i with
the operand two past the CLOSE, append the operand pointing into the loop
body. -/
def closePlant (p : List Instruction) (i : Nat) : List Instruction :=
  ((p ++ [Instruction.opcode OpCode.CLOSE]).set i
      (Instruction.operand ((p ++ [Instruction.opcode OpCode.CLOSE]).length + 1))) ++
    [Instruction.operand (i + 1)]

/-- Lookups away from the overwritten dummy slot survive the close
transformation. -/
theorem nth_closePlant (p : List Instruction) (i j : Nat) (y : Instruction) (hne : j ≠ i)
    (hy : nth p j = some y) : nth (closePlant p i) j = some y := by
  unfold closePlant
  refine nth_append_of_some ?_
  rw [nth_set_ne _ i j _ (Ne.symm hne)]
  exact nth_append_of_some hy

/-- Planting a CLOSE pops the innermost pending index and closes its loop,
preserving the planter shape. -/
theorem shapeR_plant_close (p : List Instruction) :
    ∀ out base i, ShapeR p base (out ++ [i]) →
      ShapeR (closePlant p i) base out := by
  intro out
  induction out with
  | nil =>
    intro base i h
    obtain ⟨hbi, hio, hsegOut, hinner⟩ := h
    have hinner2 : Seg p (i + 1) p.length := hinner
    have hiL : i < p.length := by have := hinner2.mono; omega
    have hge1 : 1 ≤ i := by omega
    show Seg (closePlant p i) base (closePlant p i).length
    have hlen3 : (closePlant p i).length = p.length + 2 := by
      simp [closePlant, List.length_append, List.length_set]
    rw [hlen3]
    have hseg3Out : Seg (closePlant p i) base (i - 1) :=
      hsegOut.stable (fun j y hj1 hj2 hy => nth_closePlant p i j y (by omega) hy)
    refine hseg3Out.append (Seg.loop (i - 1) p.length (p.length + 2) ?_ ?_ ?_ ?_ ?_ (Seg.nil _))
    · exact nth_closePlant p i (i - 1) _ (by omega) hio
    · have hi1 : i - 1 + 1 = i := by omega
      rw [hi1]
      unfold closePlant
      have hset : nth ((p ++ [Instruction.opcode OpCode.CLOSE]).set i
          (Instruction.operand ((p ++ [Instruction.opcode OpCode.CLOSE]).length + 1))) i =
          some (Instruction.operand ((p ++ [Instruction.opcode OpCode.CLOSE]).length + 1)) :=
        nth_set_self _ i _ (by simp [List.length_append]; omega)
      have h6 : nth (((p ++ [Instruction.opcode OpCode.CLOSE]).set i
          (Instruction.operand ((p ++ [Instruction.opcode OpCode.CLOSE]).length + 1))) ++
          [Instruction.operand (i + 1)]) i =
          some (Instruction.operand ((p ++ [Instruction.opcode OpCode.CLOSE]).length + 1)) :=
        nth_append_of_some hset
      simpa [List.length_append] using h6
    · have hi2 : i - 1 + 2 = i + 1 := by omega
      rw [hi2]
      exact hinner2.stable (fun j y hj1 hj2 hy => nth_closePlant p i j y (by omega) hy)
    · unfold closePlant
      refine nth_append_of_some ?_
      rw [nth_set_ne _ i p.length _ (by omega)]
      exact nth_append_length p _ []
    · have hi3 : i - 1 + 2 = i + 1 := by omega
      rw [hi3]
      unfold closePlant
      have hlen2 : ((p ++ [Instruction.opcode OpCode.CLOSE]).set i
          (Instruction.operand ((p ++ [Instruction.opcode OpCode.CLOSE]).length + 1))).length =
          p.length + 1 := by
        simp [List.length_set, List.length_append]
      have := nth_append_length ((p ++ [Instruction.opcode OpCode.CLOSE]).set i
          (Instruction.operand ((p ++ [Instruction.opcode OpCode.CLOSE]).length + 1)))
          (Instruction.operand (i + 1)) []
      rw [hlen2] at this
      exact this
  | cons j out ih =>
    intro base i h
    obtain ⟨h1, h2, h3, h4⟩ := h
    have hmem : i ∈ out ++ [i] := by simp
    have hij := shapeR_mem_le p (out ++ [i]) (j + 1) h4 i hmem
    exact ⟨h1, nth_closePlant p i (j - 1) _ (by omega) h2,
      h3.stable (fun k y hk1 hk2 hy => nth_closePlant p i k y (by omega) hy),
      ih (j + 1) i h4⟩

/-- Bracket discipline of a source text started at nesting depth d: a
close never appears at depth zero and the text returns to depth zero. -/
def balancedFrom : List Char → Nat → Bool
  | [], d => d == 0
  | c :: cs, d =>
    if c = '[' then balancedFrom cs (d + 1)
    else if c = ']' then decide (0 < d) && balancedFrom cs (d - 1)
    else balancedFrom cs d

/-- Master induction: from a well-shaped planter state, planting a source
text balanced relative to the current nesting depth succeeds and yields an
empty loop-nesting stack and a fully resolved, well-shaped program. -/
theorem plant_balanced : ∀ (src : List Char) (s : PlanterState),
    ShapeR s.program 0 s.indexes.reverse →
    balancedFrom src s.indexes.length = true →
    ∃ s2, plantChars s src = some s2 ∧ s2.indexes = [] ∧
      Seg s2.program 0 s2.program.length := by
  intro src
  induction src with
  | nil =>
    intro s hshape hbal
    simp only [balancedFrom, beq_iff_eq] at hbal
    have hnil : s.indexes = [] := List.length_eq_zero.mp hbal
    refine ⟨s, rfl, hnil, ?_⟩
    rw [hnil] at hshape
    exact hshape
  | cons c cs ih =>
    intro s hshape hbal
    by_cases hc1 : c = '['
    · subst hc1
      have hplant : plantChar s '[' = some
          ⟨(s.program ++ [Instruction.opcode OpCode.OPEN]) ++ [Instruction.opcode OpCode.HALT],
           (s.program ++ [Instruction.opcode OpCode.OPEN]).length :: s.indexes⟩ := rfl
      have hassoc : (s.program ++ [Instruction.opcode OpCode.OPEN]) ++
          [Instruction.opcode OpCode.HALT] =
          s.program ++ [Instruction.opcode OpCode.OPEN, Instruction.opcode OpCode.HALT] := by
        simp
      have hlen : (s.program ++ [Instruction.opcode OpCode.OPEN]).length =
          s.program.length + 1 := by simp
      have hshape2 : ShapeR (s.program ++ [Instruction.opcode OpCode.OPEN,
          Instruction.opcode OpCode.HALT]) 0
          (s.indexes.reverse ++ [s.program.length + 1]) :=
        shapeR_plant_open s.program s.indexes.reverse 0 hshape
      have hbal2 : balancedFrom cs (s.indexes.length + 1) = true := by
        simpa [balancedFrom] using hbal
      obtain ⟨s2, hs2, hs2nil, hs2seg⟩ := ih
        ⟨s.program ++ [Instruction.opcode OpCode.OPEN, Instruction.opcode OpCode.HALT],
         (s.program.length + 1) :: s.indexes⟩
        (by simpa [List.reverse_cons] using hshape2)
        (by simpa using hbal2)
      refine ⟨s2, ?_, hs2nil, hs2seg⟩
      rw [plantChars, hplant]
      rw [← hs2]
      rw [hassoc, hlen]
    · by_cases hc2 : c = ']'
      · subst hc2
        have hbal0 : 0 < s.indexes.length ∧
            balancedFrom cs (s.indexes.length - 1) = true := by
          have := hbal
          simp [balancedFrom] at this
          exact this
        cases hidx : s.indexes with
        | nil => rw [hidx] at hbal0; simp at hbal0
        | cons start rest =>
          have hplant : plantChar s ']' = some
              ⟨((s.program ++ [Instruction.opcode OpCode.CLOSE]).set start
                  (Instruction.operand
                    ((s.program ++ [Instruction.opcode OpCode.CLOSE]).length + 1))) ++
                [Instruction.operand (start + 1)], rest⟩ := by
            rw [show plantChar s ']' = (match s.indexes with
              | [] => none
              | start :: rest =>
                some ⟨((s.program ++ [Instruction.opcode OpCode.CLOSE]).set start
                    (Instruction.operand
                      ((s.program ++ [Instruction.opcode OpCode.CLOSE]).length + 1))) ++
                  [Instruction.operand (start + 1)], rest⟩) from rfl, hidx]
          have hshape0 : ShapeR s.program 0 (rest.reverse ++ [start]) := by
            have := hshape
            rw [hidx] at this
            simpa [List.reverse_cons] using this
          have hshape2 : ShapeR (closePlant s.program start) 0 rest.reverse :=
            shapeR_plant_close s.program rest.reverse 0 start hshape0
          have hbal2 : balancedFrom cs rest.length = true := by
            have := hbal0.2
            rw [hidx] at this
            simpa using this
          obtain ⟨s2, hs2, hs2nil, hs2seg⟩ := ih
            ⟨closePlant s.program start, rest⟩ hshape2 hbal2
          refine ⟨s2, ?_, hs2nil, hs2seg⟩
          rw [plantChars, hplant]
          rw [← hs2]
          rfl
      · cases hop : charToOpCode c with
        | none =>
          have hplant : plantChar s c = some s := by
            simp [plantChar, hop]
          have hbal2 : balancedFrom cs s.indexes.length = true := by
            have := hbal
            simp only [balancedFrom, if_neg hc1, if_neg hc2] at this
            exact this
          obtain ⟨s2, hs2, hs2nil, hs2seg⟩ := ih s hshape hbal2
          exact ⟨s2, by rw [plantChars, hplant]; exact hs2, hs2nil, hs2seg⟩
        | some op =>
          have hno : op ≠ OpCode.OPEN := fun h => hc1 (charToOpCode_open (h ▸ hop))
          have hnc : op ≠ OpCode.CLOSE := fun h => hc2 (charToOpCode_close (h ▸ hop))
          have hplant : plantChar s c = some ⟨s.program ++ [Instruction.opcode op],
              s.indexes⟩ := by
            simp only [plantChar, hop, if_neg hc1, if_neg hc2]
          have hshape2 : ShapeR (s.program ++ [Instruction.opcode op]) 0
              s.indexes.reverse :=
            shapeR_plant_simple op hno hnc s.program s.indexes.reverse 0 hshape
          have hbal2 : balancedFrom cs s.indexes.length = true := by
            have := hbal
            simp only [balancedFrom, if_neg hc1, if_neg hc2] at this
            exact this
          obtain ⟨s2, hs2, hs2nil, hs2seg⟩ := ih
            ⟨s.program ++ [Instruction.opcode op], s.indexes⟩ hshape2 hbal2
          exact ⟨s2, by rw [plantChars, hplant]; exact hs2, hs2nil, hs2seg⟩

/-- One continuing dispatch step from a valid position lands on a valid
position or on the halt slot. -/
theorem posOk_preserve {p : List Instruction} {P : Nat → Prop} {m : Nat}
    (hP : PosOk p 0 m P) (hm : nth p m = some (Instruction.opcode OpCode.HALT))
    {s s' : MachineState} (hpc : P s.pc ∨ s.pc = m)
    (hrel : StepRel p s (StepResult.next s')) : P s'.pc ∨ s'.pc = m := by
  rcases hpc with hpc | hpc
  · cases hrel with
    | incr v h1 h2 => exact hP.mem_simple s.pc hpc _ h1 (by decide) (by decide)
    | decr v h1 h2 => exact hP.mem_simple s.pc hpc _ h1 (by decide) (by decide)
    | right h1 => exact hP.mem_simple s.pc hpc _ h1 (by decide) (by decide)
    | left h1 h2 => exact hP.mem_simple s.pc hpc _ h1 (by decide) (by decide)
    | put v h1 h2 => exact hP.mem_simple s.pc hpc _ h1 (by decide) (by decide)
    | getEof h1 h2 => exact hP.mem_simple s.pc hpc _ h1 (by decide) (by decide)
    | getByte b rest v h1 h2 h3 =>
      exact hP.mem_simple s.pc hpc _ h1 (by decide) (by decide)
    | openJump n v h1 h2 h3 h4 =>
      obtain ⟨n2, hn2, hfall, hjump⟩ := hP.mem_open s.pc hpc h1
      have hnn : n2 = n := by
        have h5 := hn2.symm.trans h2
        simp only [Option.some.injEq, Instruction.operand.injEq] at h5
        exact h5
      exact hnn ▸ hjump
    | openFall n v h1 h2 h3 h4 =>
      obtain ⟨n2, hn2, hfall, hjump⟩ := hP.mem_open s.pc hpc h1
      exact hfall
    | closeJump n v h1 h2 h3 h4 =>
      obtain ⟨n2, hn2, hfall, hjump⟩ := hP.mem_close s.pc hpc h1
      have hnn : n2 = n := by
        have h5 := hn2.symm.trans h2
        simp only [Option.some.injEq, Instruction.operand.injEq] at h5
        exact h5
      exact hnn ▸ hjump
    | closeFall n v h1 h2 h3 h4 =>
      obtain ⟨n2, hn2, hfall, hjump⟩ := hP.mem_close s.pc hpc h1
      exact hfall
  · cases hrel <;> simp_all

/-- States reachable from s0 by continuing dispatch steps. -/
inductive Reach (prog : List Instruction) (s0 : MachineState) : MachineState → Prop where
  | refl : Reach prog s0 s0
  | tail : ∀ {s2 s3}, Reach prog s0 s2 → step prog s2 = StepResult.next s3 → Reach prog s0 s3

/-- Along any execution, the program counter stays on valid positions. -/
theorem reach_valid {p : List Instruction} {P : Nat → Prop} {m : Nat}
    (hP : PosOk p 0 m P) (hm : nth p m = some (Instruction.opcode OpCode.HALT))
    {s0 : MachineState} (h0 : P s0.pc ∨ s0.pc = m) :
    ∀ s', Reach p s0 s' → P s'.pc ∨ s'.pc = m := by
  intro s' hreach
  induction hreach with
  | refl => exact h0
  | tail hr hstep ih =>
    exact posOk_preserve hP hm ih (step_stepRel _ _ _ hstep (by simp))

/-- Compiling a balanced source from a fresh planter yields a program
consisting of a fully resolved segment followed by the trailing HALT,
together with a closed set of valid positions. -/
theorem compile_core (src : List Char) (hbal : balancedFrom src 0 = true) :
    ∃ p m, plantProgram [] src = some p ∧ p.length = m + 1 ∧
      nth p m = some (Instruction.opcode OpCode.HALT) ∧
      Seg p 0 m ∧
      ∃ P : Nat → Prop, PosOk p 0 m P := by
  obtain ⟨s2, hs2, hnil, hseg⟩ := plant_balanced src ⟨[], []⟩ (Seg.nil 0) hbal
  refine ⟨s2.program ++ [Instruction.opcode OpCode.HALT], s2.program.length, ?_, by simp, ?_,
    ?_, ?_⟩
  · rw [plantProgram, hs2]
    rfl
  · exact nth_append_length s2.program _ []
  · exact hseg.stable (fun j y hj1 hj2 hy => nth_append_of_some hy)
  · exact seg_posOk (hseg.stable (fun j y hj1 hj2 hy => nth_append_of_some hy))

/-- C9: for every bracket-balanced source, compilation succeeds and the
resulting program p with trailing HALT at position m = p.length - 1 is
structurally resolved (Seg p 0 m: every LoopOpen operand is the index of
its matching LoopClose plus two, every LoopClose operand is the index of
the first loop-body instruction, its LoopOpen plus two); every operand
stored anywhere in p is an index below p.length, hence at most the index
of the trailing HALT; and execution from instruction 0 on any tape and
input keeps the program counter on valid positions: the fetch at the
counter always yields an opcode, and when that opcode is OPEN or CLOSE the
following slot holds a resolved integer operand pointing inside the
program, so the counter never reads outside the instruction sequence and
no unresolved dummy slot is ever read as an operand. -/
theorem compiled_program_safety (src : List Char) (hbal : balancedFrom src 0 = true) :
    ∃ p m, plantProgram [] src = some p ∧ p.length = m + 1 ∧
      nth p m = some (Instruction.opcode OpCode.HALT) ∧
      Seg p 0 m ∧
      (∀ j v, nth p j = some (Instruction.operand v) → v < p.length) ∧
      ∃ P : Nat → Prop, PosOk p 0 m P ∧
        ∀ memory input s', Reach p (initState memory input) s' →
          (P s'.pc ∨ s'.pc = m) ∧
          (∃ op, nth p s'.pc = some (Instruction.opcode op)) ∧
          (∀ op2, nth p s'.pc = some (Instruction.opcode op2) →
            op2 = OpCode.OPEN ∨ op2 = OpCode.CLOSE →
            ∃ n, nth p (s'.pc + 1) = some (Instruction.operand n) ∧ n < p.length) := by
  obtain ⟨p, m, hplant, hlen, hm, hseg, P, hP⟩ := compile_core src hbal
  have hbound : ∀ j v, nth p j = some (Instruction.operand v) → v < p.length := by
    intro j v hj
    have hjlen : j < p.length := nth_some_lt hj
    rcases Nat.lt_or_ge j m with hjm | hjm
    · have := seg_operand_bound hseg j v (Nat.zero_le j) hjm hj
      omega
    · have hjeq : j = m := by omega
      subst hjeq
      have := hm.symm.trans hj
      simp at this
  refine ⟨p, m, hplant, hlen, hm, hseg, hbound, P, hP, ?_⟩
  intro memory input s' hreach
  have hval : P s'.pc ∨ s'.pc = m :=
    reach_valid hP hm hP.head s' hreach
  refine ⟨hval, ?_, ?_⟩
  · rcases hval with hv | hv
    · exact hP.mem_opcode s'.pc hv
    · exact ⟨OpCode.HALT, hv ▸ hm⟩
  · intro op2 hop2 hjump
    rcases hval with hv | hv
    · rcases hjump with hj | hj
      · subst hj
        obtain ⟨n, hn, _, _⟩ := hP.mem_open s'.pc hv hop2
        exact ⟨n, hn, hbound _ _ hn⟩
      · subst hj
        obtain ⟨n, hn, _, _⟩ := hP.mem_close s'.pc hv hop2
        exact ⟨n, hn, hbound _ _ hn⟩
    · rw [hv] at hop2
      have := hm.symm.trans hop2
      simp only [Option.some.injEq, Instruction.opcode.injEq] at this
      rcases hjump with hj | hj <;> simp_all

/-- Closed instance of compiled_program_safety at the source
plus, open, minus, close. -/
theorem compiled_program_safety_witness :
    ∃ p m, plantProgram [] ['+', '[', '-', ']'] = some p ∧ p.length = m + 1 ∧
      nth p m = some (Instruction.opcode OpCode.HALT) ∧
      Seg p 0 m ∧
      (∀ j v, nth p j = some (Instruction.operand v) → v < p.length) ∧
      ∃ P : Nat → Prop, PosOk p 0 m P ∧
        ∀ memory input s', Reach p (initState memory input) s' →
          (P s'.pc ∨ s'.pc = m) ∧
          (∃ op, nth p s'.pc = some (Instruction.opcode op)) ∧
          (∀ op2, nth p s'.pc = some (Instruction.opcode op2) →
            op2 = OpCode.OPEN ∨ op2 = OpCode.CLOSE →
            ∃ n, nth p (s'.pc + 1) = some (Instruction.operand n) ∧ n < p.length) :=
  compiled_program_safety ['+', '[', '-', ']'] (by decide)

/-- The planter never rewrites slots below the program contents it started
from: the initial contents stay as a prefix, and every pending dummy index
stays at or past their end. -/
theorem plantChars_keeps_prefix (p0 : List Instruction) :
    ∀ (src : List Char) (r : List Instruction) (idxs : List Nat),
    (∀ i ∈ idxs, p0.length ≤ i) →
    ∀ s2, plantChars ⟨p0 ++ r, idxs⟩ src = some s2 →
      (∃ r2, s2.program = p0 ++ r2) ∧ (∀ i ∈ s2.indexes, p0.length ≤ i) := by
  intro src
  induction src with
  | nil =>
    intro r idxs hidxs s2 h
    rw [plantChars] at h
    cases h
    exact ⟨⟨r, rfl⟩, hidxs⟩
  | cons c cs ih =>
    intro r idxs hidxs s2 h
    rw [plantChars] at h
    by_cases hc1 : c = '['
    · subst hc1
      have hplant : plantChar ⟨p0 ++ r, idxs⟩ '[' = some
          ⟨((p0 ++ r) ++ [Instruction.opcode OpCode.OPEN]) ++ [Instruction.opcode OpCode.HALT],
           ((p0 ++ r) ++ [Instruction.opcode OpCode.OPEN]).length :: idxs⟩ := rfl
      rw [hplant] at h
      have hre : (((p0 ++ r) ++ [Instruction.opcode OpCode.OPEN]) ++
          [Instruction.opcode OpCode.HALT] : List Instruction) =
          p0 ++ (r ++ [Instruction.opcode OpCode.OPEN] ++ [Instruction.opcode OpCode.HALT]) := by
        simp [List.append_assoc]
      rw [hre] at h
      refine ih _ _ ?_ s2 h
      intro i hi
      rcases List.mem_cons.mp hi with hi | hi
      · subst hi; simp [List.length_append]
      · exact hidxs i hi
    · by_cases hc2 : c = ']'
      · subst hc2
        cases hidx : idxs with
        | nil =>
          rw [hidx] at h
          have hplant : plantChar ⟨p0 ++ r, ([] : List Nat)⟩ ']' = none := rfl
          rw [hplant] at h
          cases h
        | cons start rest =>
          rw [hidx] at h
          have hstart : p0.length ≤ start := hidxs start (hidx ▸ List.mem_cons_self start rest)
          have hplant : plantChar ⟨p0 ++ r, start :: rest⟩ ']' = some
              ⟨(((p0 ++ r) ++ [Instruction.opcode OpCode.CLOSE]).set start
                  (Instruction.operand
                    (((p0 ++ r) ++ [Instruction.opcode OpCode.CLOSE]).length + 1))) ++
                [Instruction.operand (start + 1)], rest⟩ := rfl
          rw [hplant] at h
          have hre : ((((p0 ++ r) ++ [Instruction.opcode OpCode.CLOSE]).set start
              (Instruction.operand
                (((p0 ++ r) ++ [Instruction.opcode OpCode.CLOSE]).length + 1))) ++
              [Instruction.operand (start + 1)] : List Instruction) =
              p0 ++ (((r ++ [Instruction.opcode OpCode.CLOSE]).set (start - p0.length)
                (Instruction.operand
                  (((p0 ++ r) ++ [Instruction.opcode OpCode.CLOSE]).length + 1))) ++
                [Instruction.operand (start + 1)]) := by
            rw [List.append_assoc p0 r [Instruction.opcode OpCode.CLOSE],
              List.set_append_right _ _ hstart, List.append_assoc]
          rw [hre] at h
          refine ih _ _ ?_ s2 h
          intro i hi
          exact hidxs i (hidx ▸ List.mem_cons_of_mem start hi)
      · cases hop : charToOpCode c with
        | none =>
          have hplant : plantChar ⟨p0 ++ r, idxs⟩ c = some ⟨p0 ++ r, idxs⟩ := by
            simp [plantChar, hop]
          rw [hplant] at h
          exact ih r idxs hidxs s2 h
        | some op =>
          have hplant : plantChar ⟨p0 ++ r, idxs⟩ c = some
              ⟨(p0 ++ r) ++ [Instruction.opcode op], idxs⟩ := by
            simp only [plantChar, hop, if_neg hc1, if_neg hc2]
          rw [hplant] at h
          rw [List.append_assoc] at h
          exact ih _ idxs hidxs s2 h

/-- At a position whose fetches resolve inside the stored program,
dispatch does not see instructions appended after it. -/
theorem step_append_agree (p1 q : List Instruction) (s : MachineState)
    (hfetch : ∃ op, nth p1 s.pc = some (Instruction.opcode op))
    (hoper : ∀ op, nth p1 s.pc = some (Instruction.opcode op) →
      op = OpCode.OPEN ∨ op = OpCode.CLOSE →
      ∃ n, nth p1 (s.pc + 1) = some (Instruction.operand n)) :
    step (p1 ++ q) s = step p1 s := by
  obtain ⟨op, hop⟩ := hfetch
  have hop2 : nth (p1 ++ q) s.pc = some (Instruction.opcode op) := nth_append_of_some hop
  cases op with
  | OPEN =>
    obtain ⟨n, hn⟩ := hoper _ hop (Or.inl rfl)
    have hn2 : nth (p1 ++ q) (s.pc + 1) = some (Instruction.operand n) :=
      nth_append_of_some hn
    simp [step, hop, hop2, hn, hn2]
  | CLOSE =>
    obtain ⟨n, hn⟩ := hoper _ hop (Or.inr rfl)
    have hn2 : nth (p1 ++ q) (s.pc + 1) = some (Instruction.operand n) :=
      nth_append_of_some hn
    simp [step, hop, hop2, hn, hn2]
  | INCR => simp [step, hop, hop2]
  | DECR => simp [step, hop, hop2]
  | LEFT => simp [step, hop, hop2]
  | RIGHT => simp [step, hop, hop2]
  | PUT => simp [step, hop, hop2]
  | GET => simp [step, hop, hop2]
  | HALT => simp [step, hop, hop2]

/-- A run of a well-formed stored program is oblivious to instructions
appended after its trailing HALT: the program counter never reaches them. -/
theorem run_append_agree (p1 q : List Instruction) (P : Nat → Prop) (m : Nat)
    (hP : PosOk p1 0 m P) (hm : nth p1 m = some (Instruction.opcode OpCode.HALT)) :
    ∀ fuel s, (P s.pc ∨ s.pc = m) → run (p1 ++ q) fuel s = run p1 fuel s := by
  intro fuel
  induction fuel with
  | zero => intro s hs; rfl
  | succ n ih =>
    intro s hs
    have hfetch : ∃ op, nth p1 s.pc = some (Instruction.opcode op) := by
      rcases hs with h | h
      · exact hP.mem_opcode s.pc h
      · exact ⟨OpCode.HALT, h ▸ hm⟩
    have hoper : ∀ op, nth p1 s.pc = some (Instruction.opcode op) →
        op = OpCode.OPEN ∨ op = OpCode.CLOSE →
        ∃ n2, nth p1 (s.pc + 1) = some (Instruction.operand n2) := by
      intro op hop hjump
      rcases hs with h | h
      · rcases hjump with hj | hj
        · subst hj
          obtain ⟨n2, hn2, _, _⟩ := hP.mem_open s.pc h hop
          exact ⟨n2, hn2⟩
        · subst hj
          obtain ⟨n2, hn2, _, _⟩ := hP.mem_close s.pc h hop
          exact ⟨n2, hn2⟩
      · rw [h] at hop
        have := hm.symm.trans hop
        simp only [Option.some.injEq, Instruction.opcode.injEq] at this
        rcases hjump with hj | hj <;> simp_all
    have hagree := step_append_agree p1 q s hfetch hoper
    simp only [run]
    rw [hagree]
    cases hstep : step p1 s with
    | next s2 =>
      have hs2 : P s2.pc ∨ s2.pc = m :=
        posOk_preserve hP hm hs (step_stepRel _ _ _ hstep (by simp))
      exact ih s2 hs2
    | halted s2 => rfl
    | fault => rfl

/-- Inversion of one engine run call: planting succeeded and the dispatch
loop halted normally. -/
theorem engineRun_inv {e : Engine} {src : List Char} {input : List Nat} {fuel : Nat}
    {e2 : Engine} {out rest : List Nat}
    (h : engineRun e src input fuel = some (e2, out, rest)) :
    ∃ prog s, plantProgram e.program src = some prog ∧
      run prog fuel (initState e.memory input) = RunResult.ok s ∧
      e2 = ⟨prog, s.memory⟩ ∧ out = s.output ∧ rest = s.input := by
  rw [engineRun] at h
  cases hp : plantProgram e.program src with
  | none => rw [hp] at h; cases h
  | some prog =>
    rw [hp] at h
    have h2 : (match run prog fuel (initState e.memory input) with
      | RunResult.ok s => some ((⟨prog, s.memory⟩ : Engine), s.output, s.input)
      | _ => none) = some (e2, out, rest) := h
    cases hr : run prog fuel (initState e.memory input) with
    | ok s =>
      rw [hr] at h2
      simp only [Option.some.injEq, Prod.mk.injEq] at h2
      exact ⟨prog, s, rfl, hr, h2.1.symm, h2.2.1.symm, h2.2.2.symm⟩
    | fault => rw [hr] at h2; simp at h2
    | more s => rw [hr] at h2; simp at h2

/-- C10: a run method called a second time on the same engine does not
start from a fresh state.  After a first call on a fresh engine with a
balanced source, the engine stores the program compiled from that source
and the tape the run left behind.  A second call appends its newly planted
instructions to the stored program without clearing it, and since
execution starts at instruction 0 and the stored program is
self-contained up to its trailing HALT, the second call executes the
program compiled by the first call against the leftover tape: its output,
final tape and consumed input are those of a run of the first program on
the engine's current (not zeroed) memory. -/
theorem engine_reuse (src1 src2 : List Char) (input1 input2 : List Nat)
    (fuel1 fuel2 : Nat) (e1 e2 : Engine) (out1 rest1 out2 rest2 : List Nat)
    (hbal : balancedFrom src1 0 = true)
    (h1 : engineRun Engine.new src1 input1 fuel1 = some (e1, out1, rest1))
    (h2 : engineRun e1 src2 input2 fuel2 = some (e2, out2, rest2)) :
    ∃ p1, plantProgram [] src1 = some p1 ∧ e1.program = p1 ∧
      (∃ q, e2.program = p1 ++ q) ∧
      ∃ s, run p1 fuel2 (initState e1.memory input2) = RunResult.ok s ∧
        out2 = s.output ∧ e2.memory = s.memory ∧ rest2 = s.input := by
  obtain ⟨p1, m, hplant1, hlen, hm, hseg, P, hP⟩ := compile_core src1 hbal
  obtain ⟨prog1, s1, hp1, hr1, he1, hout1, hin1⟩ := engineRun_inv h1
  have hprog1 : prog1 = p1 := by
    rw [show Engine.new.program = ([] : List Instruction) from rfl] at hp1
    rw [hplant1] at hp1
    exact (Option.some.injEq _ _ ▸ hp1).symm
  rw [hprog1] at hr1 he1
  have he1prog : e1.program = p1 := by rw [he1]
  have he1mem : e1.memory = s1.memory := by rw [he1]
  obtain ⟨prog2, s2, hp2, hr2, he2, hout2, hin2⟩ := engineRun_inv h2
  have hpre : ∃ q, prog2 = p1 ++ q := by
    rw [plantProgram, he1prog] at hp2
    cases hchars : plantChars ⟨p1, []⟩ src2 with
    | none => rw [hchars] at hp2; cases hp2
    | some s2mid =>
      rw [hchars] at hp2
      simp only [Option.map_some', Option.some.injEq] at hp2
      have hside : plantChars ⟨p1 ++ [], []⟩ src2 = some s2mid := by
        rw [List.append_nil]; exact hchars
      obtain ⟨⟨r2, hr2b⟩, _⟩ := plantChars_keeps_prefix p1 src2 [] []
        (fun i hi => absurd hi (List.not_mem_nil i)) s2mid hside
      exact ⟨r2 ++ [Instruction.opcode OpCode.HALT], by
        rw [← hp2, hr2b, List.append_assoc]⟩
  obtain ⟨q, hq⟩ := hpre
  have hagree : run prog2 fuel2 (initState e1.memory input2) =
      run p1 fuel2 (initState e1.memory input2) := by
    rw [hq]
    exact run_append_agree p1 q P m hP hm fuel2 _ hP.head
  refine ⟨p1, hplant1, he1prog, ⟨q, by rw [he2, hq]⟩, s2, ?_, hout2, ?_, hin2⟩
  · rw [← hagree, hr2]
  · rw [he2]

/-- The engine state after running the plus-dot source on a fresh engine. -/
def engineAfterFirst : Engine :=
  ⟨[Instruction.opcode OpCode.INCR, Instruction.opcode OpCode.PUT,
    Instruction.opcode OpCode.HALT], freshMemory.set 0 1⟩

/-- The engine state after then running the minus-dot source on the same
engine: the new instructions are appended after the old program, and the
run re-executes the old program, incrementing the leftover cell 1 to 2. -/
def engineAfterSecond : Engine :=
  ⟨[Instruction.opcode OpCode.INCR, Instruction.opcode OpCode.PUT,
    Instruction.opcode OpCode.HALT, Instruction.opcode OpCode.DECR,
    Instruction.opcode OpCode.PUT, Instruction.opcode OpCode.HALT],
   (freshMemory.set 0 1).set 0 2⟩

/-- Closed instance of engine_reuse: running plus-dot then minus-dot on one
engine outputs 1 then 2 (not minus-one), because the second call re-runs
the first program on the tape cell the first call left at 1. -/
theorem engine_reuse_witness :
    ∃ p1, plantProgram [] ['+', '.'] = some p1 ∧ engineAfterFirst.program = p1 ∧
      (∃ q, engineAfterSecond.program = p1 ++ q) ∧
      ∃ s, run p1 10 (initState engineAfterFirst.memory []) = RunResult.ok s ∧
        ([2] : List Nat) = s.output ∧ engineAfterSecond.memory = s.memory ∧
        ([] : List Nat) = s.input :=
  engine_reuse ['+', '.'] ['-', '.'] [] [] 10 10 engineAfterFirst engineAfterSecond
    [1] [] [2] [] (by decide) rfl rfl

/-- Closed instance of singleLoop_operands at the loop around one minus. -/
theorem singleLoop_operands_witness :
    plantProgram [] ('[' :: (['-'] ++ [']'])) = some (singleLoopProgram ['-']) ∧
    (singleLoopProgram ['-'])[0]? = some (Instruction.opcode OpCode.OPEN) ∧
    (singleLoopProgram ['-'])[(simpleCode ['-']).length + 2]? =
      some (Instruction.opcode OpCode.CLOSE) ∧
    (singleLoopProgram ['-'])[1]? =
      some (Instruction.operand (((simpleCode ['-']).length + 2) + 2)) ∧
    (singleLoopProgram ['-'])[((simpleCode ['-']).length + 2) + 1]? =
      some (Instruction.operand (0 + 2)) :=
  singleLoop_operands ['-'] (by decide) (by decide)

end ThreadedCode
